import Mathlib

/-!
Verification development for the WeChat-Work legal customer-service backend:
a shallow embedding of the outbound-message delivery queue with retry
(`modules/message/wechat_service.py`), the QA dialogue manager
(`modules/qa/qa_manager.py`) and the knowledge search fallback
(`modules/knowledge/search_engine.py`), together with proofs of the
specification's testable properties.

Modelling conventions:
* Redis is modelled as a reliable store (`MsgState`); the code's
  `redis_client is None` degradation is an explicit `redisAvailable` flag.
* `datetime` instants are natural numbers of seconds.
* The pending Redis list is kept in pop order: the head of `pending` is the
  element `brpop` returns next (the Redis right end); `lpush` therefore
  appends at the tail of our list.
* Python dict payloads become structures; `dict.get(k, default)` becomes a
  field with that default.
-/

namespace LegalCS

/-- An outbound message dict as built by `MessageService.send_message`:
`message_id`, `user_id`, `content`, `created_at`, `retry_count`, plus the
fields `retry_delay` / `next_retry_at` added by `retry_failed_messages`
(absent on a fresh message). -/
structure Msg where
  messageId : String
  userId : String
  content : String
  createdAt : Nat
  retryCount : Nat
  retryDelay : Option Nat
  nextRetryAt : Option Nat
deriving DecidableEq, Repr

/-- The Redis-held queue state of `MessageService`: the pending list
`message:queue` (head = next popped), the in-flight set `message:processing`,
the failed set `message:failed`, and the keyed blobs
`message:failed:{message_id}` (association list keyed by the message id). -/
structure MsgState where
  pending : List Msg
  processing : List String
  failed : List String
  blobs : List (String × Msg)
deriving DecidableEq, Repr

/-- Redis `SADD member` on a set modelled as a duplicate-free list. -/
def sadd (x : String) (l : List String) : List String :=
  if x ∈ l then l else x :: l

/-- Redis `SREM member`. -/
def srem (x : String) (l : List String) : List String :=
  l.filter (fun y => y ≠ x)

/-- Redis `SET key value` on the keyed blob store (overwrites the key). -/
def blobSet (k : String) (v : Msg) (bs : List (String × Msg)) : List (String × Msg) :=
  (k, v) :: bs.filter (fun p => p.1 ≠ k)

/-- Redis `GET key` on the keyed blob store. -/
def blobGet (k : String) (bs : List (String × Msg)) : Option Msg :=
  (bs.find? (fun p => p.1 = k)).map Prod.snd

/-- Redis `DEL key` on the keyed blob store. -/
def blobDel (k : String) (bs : List (String × Msg)) : List (String × Msg) :=
  bs.filter (fun p => p.1 ≠ k)

/-- A value returned by the dynamically typed `send_message`: the code
returns booleans, while the specification says it returns the message id
string; both live in this type. -/
inductive PyVal where
  | bool (b : Bool)
  | str (s : String)
deriving DecidableEq, Repr

/-- `MessageService.send_message(user_id, message)`: builds the message dict
with a fresh uuid (`freshId` parameter), `retry_count = 0` and no retry
fields, and `lpush`es it onto `message:queue` when Redis is available,
returning `True`; when Redis is unavailable it falls back to a direct
gateway send and returns the gateway's boolean. -/
def sendMessage (userId content freshId : String) (now : Nat)
    (redisAvailable : Bool) (gatewayResult : Bool) (st : MsgState) :
    PyVal × MsgState :=
  let m : Msg := ⟨freshId, userId, content, now, 0, none, none⟩
  if redisAvailable then
    (.bool true, { st with pending := st.pending ++ [m] })
  else
    (.bool gatewayResult, st)

/-- Outcome of `wecom_handler.send_message` inside `_process_message`:
it returns `True`, returns `False`, or raises; the code treats `failed`
and `raised` with the same quarantine logic. -/
inductive SendOutcome where
  | ok
  | failed
  | raised
deriving DecidableEq, Repr

/-- The body of `MessageService._process_message` after the not-yet-due
check: `sadd` the id into `message:processing`, call the gateway, then on
success `srem` it, and on failure or exception `srem` it, `sadd` the id into
`message:failed` and persist the full dict under
`message:failed:{message_id}`. -/
def processBody (m : Msg) (oc : SendOutcome) (st : MsgState) : MsgState :=
  let st1 := { st with processing := sadd m.messageId st.processing }
  match oc with
  | .ok => { st1 with processing := srem m.messageId st1.processing }
  | _ =>
      { st1 with
          processing := srem m.messageId st1.processing,
          failed := sadd m.messageId st1.failed,
          blobs := blobSet m.messageId m st1.blobs }

/-- `MessageService._process_message` on a message already popped from the
pending list: if `next_retry_at` is set and still in the future the dict is
`lpush`ed back onto `message:queue`; otherwise the delivery body runs. -/
def processMessage (m : Msg) (now : Nat) (oc : SendOutcome) (st : MsgState) :
    MsgState :=
  match m.nextRetryAt with
  | some t =>
      if now < t then { st with pending := st.pending ++ [m] }
      else processBody m oc st
  | none => processBody m oc st

/-- One iteration of `_consume_messages` handling one message: `brpop` the
head of the pending list and run `_process_message` on it. -/
def consumeStep (now : Nat) (oc : SendOutcome) (st : MsgState) : MsgState :=
  match st.pending with
  | [] => st
  | m :: rest => processMessage m now oc { st with pending := rest }

/-- The exponential-backoff delay of `retry_failed_messages`:
`min(2 ** (retry_count_current - 1), 30)`. -/
def retryDelay (n : Nat) : Nat :=
  min (2 ^ (n - 1)) 30

/-- The re-queued message dict built by `retry_failed_messages`:
`retry_count` set to the incremented value, `retry_delay` to the backoff
delay, and `next_retry_at` to `now + delay`. -/
def requeueMsg (m : Msg) (n now : Nat) : Msg :=
  { m with
      retryCount := n,
      retryDelay := some (retryDelay n),
      nextRetryAt := some (now + retryDelay n) }

/-- The loop of `retry_failed_messages` over the `smembers` snapshot of the
failed set, carrying the running `retry_count` counter: break once the
counter reaches `limit`; skip ids with no persisted blob; drop ids whose
incremented retry count exceeds 5 (`srem` + `DEL`, no re-queue, counter
unchanged); otherwise `lpush` the updated dict back onto `message:queue`,
`srem` the id and `DEL` its blob, incrementing the counter. -/
def retryLoop (limit now : Nat) :
    List String → Nat → MsgState → Nat × MsgState
  | [], cnt, st => (cnt, st)
  | id :: rest, cnt, st =>
      if limit ≤ cnt then (cnt, st)
      else
        match blobGet id st.blobs with
        | none => retryLoop limit now rest cnt st
        | some m =>
            let n := m.retryCount + 1
            if 5 < n then
              retryLoop limit now rest cnt
                { st with failed := srem id st.failed, blobs := blobDel id st.blobs }
            else
              retryLoop limit now rest (cnt + 1)
                { st with
                    pending := st.pending ++ [requeueMsg m n now],
                    failed := srem id st.failed,
                    blobs := blobDel id st.blobs }

/-- `MessageService.retry_failed_messages(limit)` with Redis available:
iterate the snapshot of the failed set and return the number of re-queued
messages with the final state. -/
def retryFailedMessages (limit now : Nat) (st : MsgState) : Nat × MsgState :=
  retryLoop limit now st.failed 0 st

/-- `MessageService.retry_failed_messages` including the
`if not self.redis_client: return 0` guard. -/
def retryFailedMessagesOp (redisAvailable : Bool) (limit now : Nat)
    (st : MsgState) : Nat × MsgState :=
  if redisAvailable then retryFailedMessages limit now st else (0, st)

/-- `MessageService.clear_failed_messages` with Redis available: delete the
blob of every member of the failed set, counting them, then delete the
failed set itself; the pending list and in-flight set are untouched. -/
def clearFailedMessages (st : MsgState) : Nat × MsgState :=
  let r := st.failed.foldl
    (fun (acc : Nat × List (String × Msg)) id => (acc.1 + 1, blobDel id acc.2))
    (0, st.blobs)
  (r.1, { st with failed := [], blobs := r.2 })

/-- `MessageService.clear_failed_messages` including the
`if not self.redis_client: return 0` guard. -/
def clearFailedMessagesOp (redisAvailable : Bool) (st : MsgState) :
    Nat × MsgState :=
  if redisAvailable then clearFailedMessages st else (0, st)

/-- The ids currently held in the pending list. -/
def pendingIds (st : MsgState) : List String :=
  st.pending.map Msg.messageId

/-- In how many of the three collections {pending, in-flight, failed} a
message id currently appears. -/
def locCount (st : MsgState) (id : String) : Nat :=
  (if id ∈ pendingIds st then 1 else 0) +
    (if id ∈ st.processing then 1 else 0) +
    (if id ∈ st.failed then 1 else 0)

/-- Queue-state mutual exclusion: every id is in at most one collection. -/
def exclusive (st : MsgState) : Prop :=
  ∀ id, locCount st id ≤ 1

/-- The queue-state invariant maintained by the service: the three
collections are duplicate-free and mutually exclusive, blob keys are
duplicate-free, and every persisted blob is stored under its own
message id. -/
def Inv (st : MsgState) : Prop :=
  (pendingIds st).Nodup ∧ st.processing.Nodup ∧ st.failed.Nodup ∧
    (st.blobs.map Prod.fst).Nodup ∧
    (∀ p ∈ st.blobs, p.2.messageId = p.1) ∧ exclusive st

/-! ## QA dialogue manager (`modules/qa/qa_manager.py`) -/

/-- One entry of a dialogue's `rounds` list, as appended by
`QAManager._update_dialogue`: query, answer text, intent label, timestamp
and confidence (the `.get(k, default)` defaults of the code). -/
structure Round where
  query : String
  answer : String
  intent : String
  timestamp : Nat
  confidence : ℚ
deriving DecidableEq, Repr

/-- A per-customer dialogue dict: `rounds`, `created_at`, `last_active_at`,
the accumulated `context` mapping, and the `main_topic` /
`topic_confidence` context entries written by `_extract_dialogue_topic`
(kept as separate fields because `topic_confidence` is numeric). -/
structure Dialogue where
  rounds : List Round
  createdAt : Nat
  lastActiveAt : Nat
  context : List (String × String)
  mainTopic : Option String
  topicConfidence : Option ℚ
deriving DecidableEq, Repr

/-- The result dict produced by the answer pipeline; absent keys are the
code's `.get` defaults (`success`, `answer`, `intent`, `confidence`,
`need_human`, `escalate_to_human`, optional `context`, optional `error`). -/
structure AnswerResult where
  success : Bool
  answer : String
  intent : String := ""
  confidence : ℚ := 0
  needHuman : Bool := false
  escalateToHuman : Bool := false
  context : Option (List (String × String)) := none
  error : Option String := none
deriving DecidableEq, Repr

/-- `intent_classifier.classify` output: intent label and confidence. -/
structure IntentResult where
  intent : String
  confidence : ℚ
deriving DecidableEq, Repr

/-- The `QAManager` state: the `dialogue_history` dict keyed by customer id
plus the three configuration values read in `__init__`. -/
structure QAState where
  dialogueHistory : List (Nat × Dialogue)
  confidenceThreshold : ℚ
  maxDialogueRounds : Nat
  dialogueTimeout : Nat
deriving DecidableEq, Repr

/-- Dict lookup on `dialogue_history`. -/
def histGet (cid : Nat) (h : List (Nat × Dialogue)) : Option Dialogue :=
  (h.find? (fun p => p.1 = cid)).map Prod.snd

/-- Dict assignment `dialogue_history[cid] = d`. -/
def histSet (cid : Nat) (d : Dialogue) (h : List (Nat × Dialogue)) :
    List (Nat × Dialogue) :=
  (cid, d) :: h.filter (fun p => p.1 ≠ cid)

/-- The fresh dialogue dict created by `_get_dialogue`: empty rounds, empty
context, both timestamps set to now. -/
def freshDialogue (now : Nat) : Dialogue :=
  ⟨[], now, now, [], none, none⟩

/-- `QAManager._get_dialogue(customer_id)`: create a fresh dialogue when the
customer has none; reset to a fresh dialogue when
`(now - last_active_at).total_seconds() > dialogue_timeout`; otherwise
return the stored dialogue unchanged. Returns the dialogue together with
the updated manager state. -/
def getDialogue (cid now : Nat) (st : QAState) : Dialogue × QAState :=
  match histGet cid st.dialogueHistory with
  | none =>
      let d := freshDialogue now
      (d, { st with dialogueHistory := histSet cid d st.dialogueHistory })
  | some d =>
      if st.dialogueTimeout < now - d.lastActiveAt then
        let d' := freshDialogue now
        (d', { st with dialogueHistory := histSet cid d' st.dialogueHistory })
      else (d, st)

/-- The round dict appended by `_update_dialogue`. -/
def newRound (query : String) (ar : AnswerResult) (now : Nat) : Round :=
  ⟨query, ar.answer, ar.intent, now, ar.confidence⟩

/-- The round-cap trim `rounds = rounds[-max_dialogue_rounds:]` applied when
`len(rounds) > max_dialogue_rounds`. Note the Python slice corner case:
`rounds[-0:]` is the whole list, so a configured maximum of 0 trims
nothing. -/
def trimRounds (maxR : Nat) (rs : List Round) : List Round :=
  if maxR < rs.length then
    if maxR = 0 then rs else rs.drop (rs.length - maxR)
  else rs

/-- `dict.update` on the context mapping: each key of the update overwrites
the base. -/
def ctxUpdate (base upd : List (String × String)) : List (String × String) :=
  upd.foldl (fun acc p => (p.1, p.2) :: acc.filter (fun q => q.1 ≠ p.1)) base

/-- The intent-occurrence counts built by `_extract_dialogue_topic` in round
order, skipping empty intents; first occurrence fixes the dict position. -/
def intentCounts (rs : List Round) : List (String × Nat) :=
  rs.foldl
    (fun acc r =>
      if r.intent = "" then acc
      else if acc.any (fun p => p.1 = r.intent) then
        acc.map (fun p => if p.1 = r.intent then (p.1, p.2 + 1) else p)
      else acc ++ [(r.intent, 1)])
    []

/-- Python `max(items, key=count)`: the first item whose count is maximal in
iteration order (later items replace only on a strictly greater count). -/
def firstMax : List (String × Nat) → Option (String × Nat)
  | [] => none
  | p :: rest =>
      some (rest.foldl (fun best q => if best.2 < q.2 then q else best) p)

/-- `QAManager._extract_dialogue_topic`: on a non-empty rounds list with at
least one non-empty intent, store the dominant intent as `main_topic` and
its share of the rounds as `topic_confidence`. -/
def extractDialogueTopic (d : Dialogue) : Dialogue :=
  if d.rounds.isEmpty then d
  else
    match firstMax (intentCounts d.rounds) with
    | none => d
    | some p =>
        { d with
            mainTopic := some p.1,
            topicConfidence := some ((p.2 : ℚ) / (d.rounds.length : ℚ)) }

/-- `QAManager._update_dialogue(customer_id, query, answer_result)`: append
the new round, trim to the last `max_dialogue_rounds` rounds, refresh
`last_active_at`, merge the result's context and re-extract the topic.
The direct `self.dialogue_history[customer_id]` access raises `KeyError`
when the customer is absent, modelled as the error case. -/
def updateDialogue (cid : Nat) (query : String) (ar : AnswerResult)
    (now : Nat) (st : QAState) : Except String QAState :=
  match histGet cid st.dialogueHistory with
  | none => .error "KeyError"
  | some d =>
      let rounds1 := d.rounds ++ [newRound query ar now]
      let d1 := { d with
        rounds := trimRounds st.maxDialogueRounds rounds1,
        lastActiveAt := now,
        context := match ar.context with
          | some c => ctxUpdate d.context c
          | none => d.context }
      let d2 := extractDialogueTopic d1
      .ok { st with dialogueHistory := histSet cid d2 st.dialogueHistory }

/-- The generic apology dict returned by the `except` clause of
`QAManager.answer`. -/
def apologyResult (e : String) : AnswerResult :=
  { success := false,
    answer := "抱歉，我现在无法回答您的问题，请稍后再试。",
    escalateToHuman := true,
    error := some e }

/-- The body of the `try` block of `QAManager.answer`, with the two
generation paths supplied as oracles (`byIntent` for
`_generate_answer_by_intent`, `bySearch` for `_generate_answer_by_search`),
each of which may raise. An error carries the manager state at the point it
was raised (mutations already performed by `_get_dialogue` persist). -/
def answerInner (cid : Nat) (query : String) (now : Nat)
    (classify : Except String IntentResult)
    (byIntent : String → Dialogue → Except String AnswerResult)
    (bySearch : Except String AnswerResult)
    (st : QAState) : Except (String × QAState) (AnswerResult × QAState) :=
  let dres := getDialogue cid now st
  match classify with
  | .error e => .error (e, dres.2)
  | .ok ir =>
      let gen :=
        if st.confidenceThreshold ≤ ir.confidence then byIntent ir.intent dres.1
        else bySearch
      match gen with
      | .error e => .error (e, dres.2)
      | .ok ar =>
          match updateDialogue cid query ar now dres.2 with
          | .error e => .error (e, dres.2)
          | .ok st2 =>
              let ar' :=
                if ar.success = false ∨ ar.needHuman then
                  { ar with escalateToHuman := true }
                else ar
              .ok (ar', st2)

/-- `QAManager.answer(customer_id, query)`: run the `try` body; any internal
exception is caught and converted into the generic apology dict with
`success=False` and `escalate_to_human=True`. Always returns a result dict
and the (possibly partially mutated) manager state. -/
def answer (cid : Nat) (query : String) (now : Nat)
    (classify : Except String IntentResult)
    (byIntent : String → Dialogue → Except String AnswerResult)
    (bySearch : Except String AnswerResult)
    (st : QAState) : AnswerResult × QAState :=
  match answerInner cid query now classify byIntent bySearch st with
  | .ok r => r
  | .error p => (apologyResult p.1, p.2)

/-! ## Knowledge search fallback (`modules/knowledge/search_engine.py`) -/

/-- A `KnowledgeBase` row as consumed by the search engine. -/
structure KEntry where
  id : Nat
  title : String
  content : String
  category : String
  subcategory : String
  keywords : String
  knowledgeId : String
  status : String
deriving DecidableEq, Repr

/-- One entry of the result list built by `_keyword_search`. -/
structure SearchResult where
  id : Nat
  title : String
  content : String
  category : String
  subcategory : String
  score : Nat
  knowledgeId : String
deriving DecidableEq, Repr

/-- `SearchEngine._extract_keywords`: its first statement is
`re.sub(r'[\s\p{P}+]', ' ', text)`. Python's `re` module does not support
the `\p` escape (since Python 3.7 an unknown ASCII-letter escape in a
pattern is an error), so this call raises
`re.error("bad escape \p at position 3")` on every input; the
whitespace-split, stopword filter and length filter that follow are
unreachable. -/
def extractKeywords (text : String) : Except String (List String) :=
  let _ := text
  .error "re.error: bad escape \\p at position 3"

/-- The score computed by `_keyword_search` for one knowledge entry from
already-extracted keyword lists: title overlap ×3, content overlap ×1,
keyword-field overlap ×2 (the keyword field only when non-empty). -/
def entryScore (qw tw cw kw : List String) (hasKeywords : Bool) : Nat :=
  (qw.filter (fun w => w ∈ tw)).dedup.length * 3 +
    (qw.filter (fun w => w ∈ cw)).dedup.length * 1 +
    (if hasKeywords then (qw.filter (fun w => w ∈ kw)).dedup.length * 2 else 0)

/-- `SearchEngine._keyword_search`: extract the query keywords, score every
entry (entries with score 0 are omitted), sort by score descending and take
the first `top_k`. Keyword extraction may raise, which propagates. -/
def keywordSearch (query : String) (kl : List KEntry) (topK : Nat) :
    Except String (List SearchResult) := do
  let qw ← extractKeywords query
  let scored ← kl.foldlM
    (fun (acc : List (KEntry × Nat)) k => do
      let tw ← extractKeywords k.title
      let cw ← extractKeywords k.content
      let score1 := (qw.filter (fun w => w ∈ tw)).dedup.length * 3 +
        (qw.filter (fun w => w ∈ cw)).dedup.length * 1
      let score ←
        if k.keywords ≠ "" then do
          let kw ← extractKeywords k.keywords
          pure (score1 + (qw.filter (fun w => w ∈ kw)).dedup.length * 2)
        else pure score1
      pure (if score > 0 then acc ++ [(k, score)] else acc))
    []
  let sorted := scored.mergeSort (fun a b => b.2 ≤ a.2)
  pure ((sorted.take topK).map (fun p =>
    ⟨p.1.id, p.1.title, p.1.content, p.1.category, p.1.subcategory, p.2,
      p.1.knowledgeId⟩))

/-- `SearchEngine.search` on the fallback path (no semantic model loaded):
filter the knowledge list to `status == "active"` entries
(`_get_knowledge_list`), run `_keyword_search`, and let the surrounding
`try`/`except` turn any exception into the empty result list. The
model-backed semantic path involves floating-point embeddings and is not
embedded; the claims concern only the fallback. -/
def searchNoModel (query : String) (topK : Nat) (kl : List KEntry) :
    List SearchResult :=
  let active := kl.filter (fun k => k.status = "active")
  match keywordSearch query active topK with
  | .ok r => r
  | .error _ => []

/-! ## Helper lemmas on the Redis set / blob primitives -/

theorem mem_sadd_self (x : String) (l : List String) : x ∈ sadd x l := by
  unfold sadd; split <;> simp_all

theorem mem_sadd_iff (x y : String) (l : List String) :
    y ∈ sadd x l ↔ y = x ∨ y ∈ l := by
  unfold sadd; split <;> rename_i h
  · constructor
    · exact fun hy => Or.inr hy
    · rintro (rfl | hy) <;> assumption
  · simp

theorem not_mem_srem_self (x : String) (l : List String) : x ∉ srem x l := by
  unfold srem
  intro h
  have := List.of_mem_filter h
  simp at this

theorem mem_srem_iff (x y : String) (l : List String) :
    y ∈ srem x l ↔ y ∈ l ∧ y ≠ x := by
  unfold srem
  simp [List.mem_filter]

theorem srem_eq_of_not_mem (x : String) (l : List String) (h : x ∉ l) :
    srem x l = l := by
  unfold srem
  apply List.filter_eq_self.mpr
  intro a ha
  simp
  rintro rfl
  exact h ha

theorem srem_nodup (x : String) (l : List String) (h : l.Nodup) :
    (srem x l).Nodup :=
  h.filter _

theorem sadd_nodup (x : String) (l : List String) (h : l.Nodup) :
    (sadd x l).Nodup := by
  unfold sadd; split
  · exact h
  · exact List.Nodup.cons (by assumption) h

theorem blobGet_blobSet_same (k : String) (v : Msg) (bs : List (String × Msg)) :
    blobGet k (blobSet k v bs) = some v := by
  simp [blobGet, blobSet, List.find?]

theorem blobGet_blobDel_self (k : String) (bs : List (String × Msg)) :
    blobGet k (blobDel k bs) = none := by
  induction bs with
  | nil => rfl
  | cons a bs ih =>
      by_cases h : a.1 = k
      · simp only [blobDel] at ih ⊢
        rw [List.filter_cons_of_neg (by simp [h])]
        exact ih
      · simp only [blobDel, blobGet] at ih ⊢
        rw [List.filter_cons_of_pos (by simp [h]), List.find?_cons_of_neg _ (by simp [h])]
        exact ih

theorem blobGet_blobDel_other (k k' : String) (bs : List (String × Msg))
    (h : k ≠ k') : blobGet k (blobDel k' bs) = blobGet k bs := by
  induction bs with
  | nil => rfl
  | cons a bs ih =>
      by_cases h1 : a.1 = k'
      · have h2 : ¬ a.1 = k := by
          rw [h1]; exact fun he => h he.symm
        have hd : blobDel k' (a :: bs) = blobDel k' bs := by
          simp [blobDel, List.filter_cons, h1]
        rw [hd, ih]
        simp [blobGet, List.find?_cons, h2]
      · have hd : blobDel k' (a :: bs) = a :: blobDel k' bs := by
          simp [blobDel, List.filter_cons, h1]
        rw [hd]
        by_cases h2 : a.1 = k
        · simp [blobGet, List.find?_cons, h2]
        · simpa [blobGet, List.find?_cons, h2] using ih

theorem blobGet_blobDel_some (k k' : String) (m : Msg)
    (bs : List (String × Msg)) (h : blobGet k (blobDel k' bs) = some m) :
    blobGet k bs = some m := by
  by_cases hk : k = k'
  · rw [hk, blobGet_blobDel_self] at h; exact absurd h (by simp)
  · rwa [blobGet_blobDel_other k k' bs hk] at h

theorem blobDel_wf (k : String) (bs : List (String × Msg))
    (h : ∀ p ∈ bs, p.2.messageId = p.1) :
    ∀ p ∈ blobDel k bs, p.2.messageId = p.1 := by
  intro p hp
  exact h p (List.mem_of_mem_filter hp)

theorem blobDel_keys_nodup (k : String) (bs : List (String × Msg))
    (h : (bs.map Prod.fst).Nodup) :
    ((blobDel k bs).map Prod.fst).Nodup := by
  unfold blobDel
  exact List.Nodup.sublist (List.Sublist.map _ (List.filter_sublist bs)) h

theorem blobGet_messageId (k : String) (m : Msg) (bs : List (String × Msg))
    (hwf : ∀ p ∈ bs, p.2.messageId = p.1) (h : blobGet k bs = some m) :
    m.messageId = k := by
  unfold blobGet at h
  cases hf : bs.find? (fun p => p.1 = k) with
  | none => rw [hf] at h; simp at h
  | some p =>
      rw [hf] at h
      simp at h
      have hmem := List.mem_of_find?_eq_some hf
      have hpred := List.find?_some hf
      simp at hpred
      rw [← h, hwf p hmem, hpred]

/-! ## Claim theorems -/

/-- C10: degraded-store no-ops. When the Redis client is unavailable,
`retry_failed_messages` returns 0 and `clear_failed_messages` returns 0,
and neither call mutates any queue, set, or blob state. -/
theorem c10_degraded_store_noops (limit now : Nat) (st : MsgState) :
    retryFailedMessagesOp false limit now st = (0, st) ∧
    clearFailedMessagesOp false st = (0, st) :=
  ⟨rfl, rfl⟩

/-- C3: backoff law. A failed message visited by `retry_failed_messages`
whose incremented retry count `n = retry_count + 1` is at most 5 is
re-queued with computed delay `min(2^(n-1), 30)` recorded in `retry_delay`
and `next_retry_at = now + delay`; the delay formula over `n = 1..6` yields
exactly 1, 2, 4, 8, 16, 30 (capped, not 32). -/
theorem c3_backoff_law (m : Msg) (now limit : Nat) (st : MsgState)
    (id : String) (hf : st.failed = [id]) (hb : blobGet id st.blobs = some m)
    (hlim : 1 ≤ limit) (hn : m.retryCount + 1 ≤ 5) :
    (retryFailedMessages limit now st).2.pending
        = st.pending ++ [requeueMsg m (m.retryCount + 1) now] ∧
    (requeueMsg m (m.retryCount + 1) now).retryDelay
        = some (min (2 ^ (m.retryCount + 1 - 1)) 30) ∧
    (requeueMsg m (m.retryCount + 1) now).nextRetryAt
        = some (now + min (2 ^ (m.retryCount + 1 - 1)) 30) ∧
    [1, 2, 3, 4, 5, 6].map retryDelay = [1, 2, 4, 8, 16, 30] := by
  have h0 : ¬ (limit ≤ 0) := by omega
  have h5 : ¬ (5 < m.retryCount + 1) := by omega
  refine ⟨?_, rfl, rfl, by decide⟩
  simp [retryFailedMessages, hf, retryLoop, h0, hb, h5]

/-- The concrete failed message used to exercise the backoff law. -/
def c3Msg : Msg := ⟨"m1", "u1", "hello", 0, 2, none, none⟩

/-- A queue state holding exactly `c3Msg` in the failed set. -/
def c3St : MsgState := ⟨[], [], ["m1"], [("m1", c3Msg)]⟩

theorem c3_backoff_law_witness :
    c3St.failed = ["m1"] ∧ blobGet "m1" c3St.blobs = some c3Msg ∧
    (1 : Nat) ≤ 10 ∧ c3Msg.retryCount + 1 ≤ 5 ∧
    (retryFailedMessages 10 100 c3St).2.pending
      = c3St.pending ++ [requeueMsg c3Msg (c3Msg.retryCount + 1) 100] := by
  refine ⟨rfl, rfl, by decide, by decide, ?_⟩
  exact (c3_backoff_law c3Msg 100 10 c3St "m1" rfl rfl (by decide)
    (by decide)).1

/-- C2 counterexample: `send_message` does not return the freshly generated
message id — with Redis available it returns the boolean `True` (its
documented "was the send successful" flag), which is not the id string. -/
theorem c2_counterexample :
    (sendMessage "user1" "hello" "id-1" 0 true true ⟨[], [], [], []⟩).1
        = PyVal.bool true ∧
    (sendMessage "user1" "hello" "id-1" 0 true true ⟨[], [], [], []⟩).1
        ≠ PyVal.str "id-1" := by
  constructor
  · rfl
  · intro h
    simp [sendMessage] at h

/-- C2 (amended): `send_message` returns `True` immediately (a boolean
success flag, not the id), and afterwards the pending queue contains
exactly one entry carrying the freshly generated id, with
`retry_count = 0`. -/
theorem c2_enqueue_pending_entry (userId content freshId : String)
    (now : Nat) (gw : Bool) (st : MsgState)
    (hfresh : freshId ∉ pendingIds st) :
    (sendMessage userId content freshId now true gw st).1 = PyVal.bool true ∧
    (sendMessage userId content freshId now true gw st).2.pending.filter
        (fun m => m.messageId = freshId)
      = [⟨freshId, userId, content, now, 0, none, none⟩] := by
  refine ⟨rfl, ?_⟩
  show (st.pending ++ [(⟨freshId, userId, content, now, 0, none, none⟩ : Msg)]).filter
      (fun m => m.messageId = freshId) = _
  rw [List.filter_append]
  have h1 : st.pending.filter (fun m => m.messageId = freshId) = [] := by
    apply List.filter_eq_nil_iff.mpr
    intro a ha
    simp only [decide_eq_true_eq]
    intro he
    apply hfresh
    show freshId ∈ st.pending.map Msg.messageId
    rw [← he]
    exact List.mem_map_of_mem Msg.messageId ha
  rw [h1]
  simp

theorem c2_enqueue_pending_entry_witness :
    "id-1" ∉ pendingIds ⟨[], [], [], []⟩ ∧
    (sendMessage "user1" "hello" "id-1" 0 true true ⟨[], [], [], []⟩).1
        = PyVal.bool true ∧
    (sendMessage "user1" "hello" "id-1" 0 true true
        ⟨[], [], [], []⟩).2.pending.filter (fun m => m.messageId = "id-1")
      = [⟨"id-1", "user1", "hello", 0, 0, none, none⟩] := by
  refine ⟨by simp [pendingIds], ?_, ?_⟩
  · exact (c2_enqueue_pending_entry "user1" "hello" "id-1" 0 true
      ⟨[], [], [], []⟩ (by simp [pendingIds])).1
  · exact (c2_enqueue_pending_entry "user1" "hello" "id-1" 0 true
      ⟨[], [], [], []⟩ (by simp [pendingIds])).2

/-- The active knowledge entry titled 劳动合同法 from the C8 scenario. -/
def c8Labor : KEntry :=
  ⟨1, "劳动合同法", "劳动合同的订立和解除", "legal", "labor", "劳动合同", "kb-1",
    "active"⟩

/-- The active knowledge entry titled 婚姻家庭纠纷 from the C8 scenario. -/
def c8Marriage : KEntry :=
  ⟨2, "婚姻家庭纠纷", "婚姻家庭纠纷的处理", "legal", "marriage", "婚姻", "kb-2",
    "active"⟩

/-- C8 evaluated at the failing input: with no semantic model loaded, the
keyword fallback raises on every query — `_extract_keywords` begins with
`re.sub(r'[\s\p{P}+]', ' ', text)` and Python's `re` module rejects the
`\p` escape — so `search("劳动合同")` over the scenario's knowledge base
returns the empty list instead of ranking 劳动合同法 first. -/
theorem c8_keyword_fallback_raises :
    searchNoModel "劳动合同" 5 [c8Labor, c8Marriage] = [] ∧
    keywordSearch "劳动合同" [c8Labor, c8Marriage] 5
      = .error "re.error: bad escape \\p at position 3" ∧
    extractKeywords "劳动合同"
      = .error "re.error: bad escape \\p at position 3" :=
  ⟨rfl, rfl, rfl⟩

/-! ## Helper lemmas for the QA dialogue manager -/

theorem histGet_histSet_same (cid : Nat) (d : Dialogue)
    (h : List (Nat × Dialogue)) : histGet cid (histSet cid d h) = some d := by
  simp [histGet, histSet, List.find?_cons]

theorem extractDialogueTopic_rounds (d : Dialogue) :
    (extractDialogueTopic d).rounds = d.rounds := by
  unfold extractDialogueTopic
  split
  · rfl
  · split <;> rfl

/-- C6: dialogue round cap. `_update_dialogue` appends the new round and
trims to the last `max_dialogue_rounds` rounds: a session configured with
`max_dialogue_rounds = 10` that already holds 10 rounds ends up with
exactly 10 rounds, the oldest dropped and the new round last; and for any
configured maximum of at least 1, every update leaves the round count at
most the maximum. -/
theorem c6_dialogue_round_cap (st : QAState) (cid : Nat) (d : Dialogue)
    (query : String) (ar : AnswerResult) (now : Nat)
    (hd : histGet cid st.dialogueHistory = some d) :
    ∃ st', updateDialogue cid query ar now st = .ok st' ∧
      ∃ d', histGet cid st'.dialogueHistory = some d' ∧
        d'.rounds
          = trimRounds st.maxDialogueRounds (d.rounds ++ [newRound query ar now]) ∧
        (st.maxDialogueRounds = 10 → d.rounds.length = 10 →
          d'.rounds = d.rounds.drop 1 ++ [newRound query ar now] ∧
            d'.rounds.length = 10) ∧
        (1 ≤ st.maxDialogueRounds →
          d'.rounds.length ≤ st.maxDialogueRounds) := by
  refine ⟨_, by rw [updateDialogue, hd], ?_⟩
  refine ⟨_, histGet_histSet_same _ _ _, ?_, ?_, ?_⟩
  · rw [extractDialogueTopic_rounds]
  · intro h10 hlen
    rw [extractDialogueTopic_rounds]
    have hlt : st.maxDialogueRounds < (d.rounds ++ [newRound query ar now]).length := by
      simp [hlen, h10]
    have h0 : ¬ st.maxDialogueRounds = 0 := by omega
    constructor
    · show trimRounds _ _ = _
      unfold trimRounds
      rw [if_pos hlt, if_neg h0]
      have : (d.rounds ++ [newRound query ar now]).length - st.maxDialogueRounds = 1 := by
        simp [hlen, h10]
      rw [this, List.drop_append_of_le_length (by omega)]
    · show (trimRounds _ _).length = 10
      unfold trimRounds
      rw [if_pos hlt, if_neg h0]
      simp [List.length_drop, hlen, h10]
  · intro hmax
    rw [extractDialogueTopic_rounds]
    show (trimRounds _ _).length ≤ _
    have hc : (d.rounds ++ [newRound query ar now]).length
        = d.rounds.length + 1 := by simp
    unfold trimRounds
    split <;> rename_i h
    · have h0 : ¬ st.maxDialogueRounds = 0 := by omega
      rw [if_neg h0, List.length_drop]
      omega
    · omega

/-- A concrete round list of length 10 for the C6 witness. -/
def c6Rounds : List Round :=
  (List.range 10).map (fun i => ⟨toString i, "a", "inquiry", i, 0⟩)

/-- A concrete 10-round dialogue for the C6 witness. -/
def c6Dlg : Dialogue := ⟨c6Rounds, 0, 40, [], none, none⟩

/-- A concrete QA manager state with the default configuration for C6. -/
def c6St : QAState := ⟨[(1, c6Dlg)], 7 / 10, 10, 86400⟩

/-- A concrete answer result for the C6 witness. -/
def c6AR : AnswerResult := { success := true, answer := "ok" }

theorem c6_dialogue_round_cap_witness :
    histGet 1 c6St.dialogueHistory = some c6Dlg ∧
    ∃ st', updateDialogue 1 "q11" c6AR 50 c6St = .ok st' ∧
      ∃ d', histGet 1 st'.dialogueHistory = some d' ∧
        d'.rounds = c6Dlg.rounds.drop 1 ++ [newRound "q11" c6AR 50] ∧
        d'.rounds.length = 10 := by
  refine ⟨rfl, ?_⟩
  obtain ⟨st', hok, d', hget, _, hcap, _⟩ :=
    c6_dialogue_round_cap c6St 1 c6Dlg "q11" c6AR 50 rfl
  obtain ⟨he, hl⟩ := hcap rfl (by decide)
  exact ⟨st', hok, d', hget, he, hl⟩

/-- C7: session timeout. On access, `_get_dialogue` discards a stored
session whose `last_active_at` is more than `dialogue_timeout` seconds
before now and stores a fresh session with zero rounds and empty context;
a session within the timeout is returned unchanged, with the manager state
untouched. -/
theorem c7_session_timeout (st : QAState) (cid now : Nat) (d : Dialogue)
    (hd : histGet cid st.dialogueHistory = some d) :
    (st.dialogueTimeout < now - d.lastActiveAt →
      getDialogue cid now st
        = (freshDialogue now,
            { st with dialogueHistory :=
                histSet cid (freshDialogue now) st.dialogueHistory }) ∧
      (freshDialogue now).rounds = [] ∧ (freshDialogue now).context = []) ∧
    (now - d.lastActiveAt ≤ st.dialogueTimeout →
      getDialogue cid now st = (d, st)) := by
  constructor
  · intro h
    refine ⟨?_, rfl, rfl⟩
    rw [getDialogue, hd]
    simp [h]
  · intro h
    rw [getDialogue, hd]
    simp [Nat.not_lt.mpr h]

/-- A stale dialogue (last active at time 0) for the C7 witness. -/
def c7Dlg : Dialogue := ⟨[⟨"q", "a", "inquiry", 0, 0⟩], 0, 0, [("k", "v")], none, none⟩

/-- A QA manager state holding the stale dialogue for customer 1. -/
def c7St : QAState := ⟨[(1, c7Dlg)], 7 / 10, 10, 86400⟩

theorem c7_session_timeout_witness :
    histGet 1 c7St.dialogueHistory = some c7Dlg ∧
    c7St.dialogueTimeout < 90000 - c7Dlg.lastActiveAt ∧
    (getDialogue 1 90000 c7St).1 = freshDialogue 90000 ∧
    (getDialogue 1 86400 c7St).1 = c7Dlg := by
  refine ⟨rfl, by decide, ?_, ?_⟩
  · have h := (c7_session_timeout c7St 1 90000 c7Dlg rfl).1 (by decide)
    exact congrArg Prod.fst h.1
  · have h := (c7_session_timeout c7St 1 86400 c7Dlg rfl).2 (by decide)
    exact congrArg Prod.fst h

/-- C9: `QAManager.answer` never raises. It always returns a result dict
together with the updated manager state; whenever the `try` body raises an
internal exception, the returned dict is the generic apology with
`success = False` and `escalate_to_human = True`. -/
theorem c9_answer_never_raises (cid : Nat) (query : String) (now : Nat)
    (classify : Except String IntentResult)
    (byIntent : String → Dialogue → Except String AnswerResult)
    (bySearch : Except String AnswerResult) (st : QAState) :
    (∃ r st2, answer cid query now classify byIntent bySearch st = (r, st2)) ∧
    (∀ e stp,
      answerInner cid query now classify byIntent bySearch st = .error (e, stp) →
      answer cid query now classify byIntent bySearch st = (apologyResult e, stp) ∧
      (apologyResult e).success = false ∧
      (apologyResult e).answer = "抱歉，我现在无法回答您的问题，请稍后再试。" ∧
      (apologyResult e).escalateToHuman = true) := by
  constructor
  · exact ⟨_, _, rfl⟩
  · intro e stp h
    refine ⟨?_, rfl, rfl, rfl⟩
    rw [answer, h]

/-- An initially empty QA manager state for the C9 witness. -/
def c9St : QAState := ⟨[], 7 / 10, 10, 86400⟩

theorem c9_answer_never_raises_witness :
    answerInner 1 "你好" 5 (Except.error "boom")
        (fun _ _ => Except.ok { success := true, answer := "hi" })
        (Except.ok { success := true, answer := "hi" }) c9St
      = .error ("boom", (getDialogue 1 5 c9St).2) ∧
    answer 1 "你好" 5 (Except.error "boom")
        (fun _ _ => Except.ok { success := true, answer := "hi" })
        (Except.ok { success := true, answer := "hi" }) c9St
      = (apologyResult "boom", (getDialogue 1 5 c9St).2) := by
  refine ⟨rfl, ?_⟩
  exact ((c9_answer_never_raises 1 "你好" 5 (Except.error "boom")
    (fun _ _ => Except.ok { success := true, answer := "hi" })
    (Except.ok { success := true, answer := "hi" }) c9St).2
    "boom" (getDialogue 1 5 c9St).2 rfl).1

/-- C5: failure quarantine. A message popped from the pending queue whose
gateway send returns `False` or raises ends up with its id in the failed
set, absent from the pending queue and the in-flight set, and its full dict
retrievable from the blob store under `message:failed:{message_id}`. -/
theorem c5_failure_quarantine (st : MsgState) (m : Msg) (rest : List Msg)
    (now : Nat) (oc : SendOutcome)
    (hInv : Inv st) (hp : st.pending = m :: rest) (hoc : oc ≠ .ok)
    (hdue : ∀ t, m.nextRetryAt = some t → t ≤ now) :
    m.messageId ∈ (consumeStep now oc st).failed ∧
    m.messageId ∉ pendingIds (consumeStep now oc st) ∧
    m.messageId ∉ (consumeStep now oc st).processing ∧
    blobGet m.messageId (consumeStep now oc st).blobs = some m := by
  obtain ⟨hpnd, hpr, hfl, hbk, hwf, hex⟩ := hInv
  have hcs : consumeStep now oc st
      = processBody m oc { st with pending := rest } := by
    rw [consumeStep, hp]
    show processMessage m now oc _ = _
    rw [processMessage]
    cases hn : m.nextRetryAt with
    | none => rfl
    | some t =>
        have := hdue t hn
        simp [Nat.not_lt.mpr this]
  have hnotrest : m.messageId ∉ rest.map Msg.messageId := by
    have : pendingIds st = m.messageId :: rest.map Msg.messageId := by
      simp [pendingIds, hp]
    rw [this] at hpnd
    exact (List.nodup_cons.mp hpnd).1
  have hmempnd : m.messageId ∈ pendingIds st := by
    simp [pendingIds, hp]
  have hnotpr : m.messageId ∉ st.processing := by
    intro hc
    have h2 := hex m.messageId
    by_cases h3 : m.messageId ∈ st.failed <;>
      simp [locCount, hmempnd, hc, h3] at h2
  have hbody : processBody m oc { st with pending := rest }
      = { st with
            pending := rest,
            processing := srem m.messageId (sadd m.messageId st.processing),
            failed := sadd m.messageId st.failed,
            blobs := blobSet m.messageId m st.blobs } := by
    cases oc with
    | ok => exact absurd rfl hoc
    | failed => rfl
    | raised => rfl
  rw [hcs, hbody]
  refine ⟨mem_sadd_self _ _, ?_, ?_, ?_⟩
  · show m.messageId ∉ rest.map Msg.messageId
    exact hnotrest
  · exact not_mem_srem_self _ _
  · exact blobGet_blobSet_same _ _ _

/-- The concrete message popped for the C5 witness. -/
def c5Msg : Msg := ⟨"m5", "u5", "body", 0, 0, none, none⟩

/-- A queue state whose pending head is `c5Msg`. -/
def c5St : MsgState := ⟨[c5Msg], [], [], []⟩

theorem c5_failure_quarantine_witness :
    Inv c5St ∧ c5St.pending = c5Msg :: [] ∧
    c5Msg.messageId ∈ (consumeStep 7 .failed c5St).failed ∧
    c5Msg.messageId ∉ pendingIds (consumeStep 7 .failed c5St) ∧
    c5Msg.messageId ∉ (consumeStep 7 .failed c5St).processing ∧
    blobGet c5Msg.messageId (consumeStep 7 .failed c5St).blobs = some c5Msg := by
  have hInv : Inv c5St := by
    refine ⟨by simp [pendingIds, c5St, c5Msg], by simp [c5St],
      by simp [c5St], by simp [c5St], by simp [c5St], ?_⟩
    intro id
    simp [locCount, pendingIds, c5St]
    split <;> omega
  have h := c5_failure_quarantine c5St c5Msg [] 7 .failed hInv rfl
    (by intro h; exact absurd h (by simp)) (by intro t ht; simp [c5Msg] at ht)
  exact ⟨hInv, rfl, h.1, h.2.1, h.2.2.1, h.2.2.2⟩

/-! ## Helper lemmas for the queue-state invariant -/

theorem ite_le_ite (a b : Prop) [Decidable a] [Decidable b] (h : a → b) :
    (if a then (1 : Nat) else 0) ≤ if b then 1 else 0 := by
  by_cases ha : a
  · rw [if_pos ha, if_pos (h ha)]
  · simp [ha]

theorem locCount_mono (st st' : MsgState) (y : String)
    (hp : y ∈ pendingIds st' → y ∈ pendingIds st)
    (hr : y ∈ st'.processing → y ∈ st.processing)
    (hf : y ∈ st'.failed → y ∈ st.failed) :
    locCount st' y ≤ locCount st y :=
  Nat.add_le_add (Nat.add_le_add (ite_le_ite _ _ hp) (ite_le_ite _ _ hr))
    (ite_le_ite _ _ hf)

theorem locCount_pos_of_pending (st : MsgState) (id : String)
    (h : id ∈ pendingIds st) : 1 ≤ locCount st id := by
  unfold locCount
  rw [if_pos h]
  omega

theorem locCount_pos_of_processing (st : MsgState) (id : String)
    (h : id ∈ st.processing) : 1 ≤ locCount st id := by
  unfold locCount
  rw [if_pos h]
  omega

theorem locCount_pos_of_failed (st : MsgState) (id : String)
    (h : id ∈ st.failed) : 1 ≤ locCount st id := by
  unfold locCount
  rw [if_pos h]
  omega

theorem locCount_pos_elim (st : MsgState) (id : String)
    (h : 1 ≤ locCount st id) :
    id ∈ pendingIds st ∨ id ∈ st.processing ∨ id ∈ st.failed := by
  by_contra hc
  push_neg at hc
  simp [locCount, hc.1, hc.2.1, hc.2.2] at h

theorem exclusive_pending_only (st : MsgState) (hex : exclusive st)
    (id : String) (h : id ∈ pendingIds st) :
    id ∉ st.processing ∧ id ∉ st.failed := by
  constructor <;> intro hc
  · have h2 := hex id
    by_cases h3 : id ∈ st.failed <;> simp [locCount, h, hc, h3] at h2
  · have h2 := hex id
    by_cases h3 : id ∈ st.processing <;> simp [locCount, h, hc, h3] at h2

theorem exclusive_failed_only (st : MsgState) (hex : exclusive st)
    (id : String) (h : id ∈ st.failed) :
    id ∉ pendingIds st ∧ id ∉ st.processing := by
  constructor <;> intro hc
  · have h2 := hex id
    by_cases h3 : id ∈ st.processing <;> simp [locCount, h, hc, h3] at h2
  · have h2 := hex id
    by_cases h3 : id ∈ pendingIds st <;> simp [locCount, h, hc, h3] at h2

theorem srem_sadd (x : String) (l : List String) (h : x ∉ l) :
    srem x (sadd x l) = l := by
  unfold sadd
  rw [if_neg h]
  show srem x (x :: l) = l
  unfold srem
  rw [List.filter_cons_of_neg (by simp)]
  exact srem_eq_of_not_mem x l h

theorem blobSet_keys_nodup (k : String) (v : Msg) (bs : List (String × Msg))
    (h : (bs.map Prod.fst).Nodup) :
    ((blobSet k v bs).map Prod.fst).Nodup := by
  unfold blobSet
  rw [List.map_cons]
  refine List.Nodup.cons ?_ ?_
  · intro hc
    simp only [List.mem_map] at hc
    obtain ⟨p, hp, hpk⟩ := hc
    have := List.of_mem_filter hp
    simp at this
    exact this hpk
  · exact List.Nodup.sublist (List.Sublist.map _ (List.filter_sublist bs)) h

theorem blobSet_wf (k : String) (v : Msg) (bs : List (String × Msg))
    (hv : v.messageId = k) (h : ∀ p ∈ bs, p.2.messageId = p.1) :
    ∀ p ∈ blobSet k v bs, p.2.messageId = p.1 := by
  intro p hp
  unfold blobSet at hp
  rcases List.mem_cons.mp hp with h1 | h1
  · rw [h1]; exact hv
  · exact h p (List.mem_of_mem_filter h1)

/-- Invariant preservation for the drop branch of the retry loop. -/
theorem inv_dropState (st : MsgState) (id : String) (hInv : Inv st) :
    Inv { st with failed := srem id st.failed, blobs := blobDel id st.blobs } := by
  obtain ⟨hpnd, hpr, hfl, hbk, hwf, hex⟩ := hInv
  refine ⟨hpnd, hpr, srem_nodup _ _ hfl, blobDel_keys_nodup _ _ hbk,
    blobDel_wf _ _ hwf, ?_⟩
  intro y
  refine le_trans (locCount_mono st _ y (fun h => h) (fun h => h) ?_) (hex y)
  intro h
  exact ((mem_srem_iff _ _ _).mp h).1

/-- Invariant preservation for the re-queue branch of the retry loop. -/
theorem inv_requeueState (st : MsgState) (id : String) (m : Msg)
    (n now : Nat) (hInv : Inv st) (hid : id ∈ st.failed)
    (hb : blobGet id st.blobs = some m) :
    Inv { st with
            pending := st.pending ++ [requeueMsg m n now],
            failed := srem id st.failed,
            blobs := blobDel id st.blobs } := by
  obtain ⟨hpnd, hpr, hfl, hbk, hwf, hex⟩ := hInv
  have hmid : m.messageId = id := blobGet_messageId id m st.blobs hwf hb
  have hnp : id ∉ pendingIds st := (exclusive_failed_only st hex id hid).1
  have hnr : id ∉ st.processing := (exclusive_failed_only st hex id hid).2
  have hpe : pendingIds { st with
      pending := st.pending ++ [requeueMsg m n now],
      failed := srem id st.failed, blobs := blobDel id st.blobs }
      = pendingIds st ++ [id] := by
    simp [pendingIds, requeueMsg, hmid]
  refine ⟨?_, hpr, srem_nodup _ _ hfl, blobDel_keys_nodup _ _ hbk,
    blobDel_wf _ _ hwf, ?_⟩
  · rw [hpe]
    apply List.Nodup.append hpnd (List.nodup_singleton id)
    intro a ha hb2
    simp at hb2
    rw [hb2] at ha
    exact hnp ha
  · intro y
    by_cases hy : y = id
    · subst hy
      unfold locCount
      rw [hpe, if_pos (by simp), if_neg hnr,
        if_neg (not_mem_srem_self y st.failed)]
    · refine le_trans (locCount_mono st _ y ?_ (fun h => h) ?_) (hex y)
      · rw [hpe]
        intro h
        rcases List.mem_append.mp h with h1 | h1
        · exact h1
        · simp at h1
          exact absurd h1 hy
      · intro h
        exact ((mem_srem_iff _ _ _).mp h).1

theorem pendingIds_append (st : MsgState) (q : Msg) (fl : List String)
    (bs : List (String × Msg)) :
    pendingIds { st with pending := st.pending ++ [q], failed := fl, blobs := bs }
      = pendingIds st ++ [q.messageId] := by
  simp [pendingIds]

theorem requeueMsg_messageId (m : Msg) (n now : Nat) :
    (requeueMsg m n now).messageId = m.messageId := rfl

/-! ## Induction lemmas about the retry loop -/

theorem retryLoop_processing (limit now : Nat) (snap : List String) :
    ∀ (cnt : Nat) (st : MsgState),
      (retryLoop limit now snap cnt st).2.processing = st.processing := by
  induction snap with
  | nil => intro cnt st; rfl
  | cons id rest ih =>
      intro cnt st
      by_cases hle : limit ≤ cnt
      · simp only [retryLoop, if_pos hle]
      · cases hb : blobGet id st.blobs with
        | none =>
            simp only [retryLoop, hb, hle, if_false, ite_false]
            exact ih cnt st
        | some m =>
            by_cases h5 : 5 < m.retryCount + 1
            · simp only [retryLoop, hb, hle, h5, if_false, ite_false, if_true,
                ite_true]
              exact ih cnt _
            · simp only [retryLoop, hb, hle, h5, if_false, ite_false]
              exact ih (cnt + 1) _

theorem retryLoop_pending_mono (limit now : Nat) (snap : List String) :
    ∀ (cnt : Nat) (st : MsgState) (x : String),
      x ∈ pendingIds st →
      x ∈ pendingIds (retryLoop limit now snap cnt st).2 := by
  induction snap with
  | nil => intro cnt st x hx; exact hx
  | cons id rest ih =>
      intro cnt st x hx
      by_cases hle : limit ≤ cnt
      · simp only [retryLoop, if_pos hle]; exact hx
      · cases hb : blobGet id st.blobs with
        | none =>
            simp only [retryLoop, hb, hle, if_false, ite_false]
            exact ih cnt st x hx
        | some m =>
            by_cases h5 : 5 < m.retryCount + 1
            · simp only [retryLoop, hb, hle, h5, if_false, ite_false, if_true,
                ite_true]
              exact ih cnt _ x hx
            · simp only [retryLoop, hb, hle, h5, if_false, ite_false]
              refine ih (cnt + 1) _ x ?_
              rw [pendingIds_append]
              exact List.mem_append_left _ hx

theorem retryLoop_failed_sub (limit now : Nat) (snap : List String) :
    ∀ (cnt : Nat) (st : MsgState) (x : String),
      x ∈ (retryLoop limit now snap cnt st).2.failed → x ∈ st.failed := by
  induction snap with
  | nil => intro cnt st x hx; exact hx
  | cons id rest ih =>
      intro cnt st x hx
      by_cases hle : limit ≤ cnt
      · simp only [retryLoop, if_pos hle] at hx; exact hx
      · cases hb : blobGet id st.blobs with
        | none =>
            simp only [retryLoop, hb, hle, if_false, ite_false] at hx
            exact ih cnt st x hx
        | some m =>
            by_cases h5 : 5 < m.retryCount + 1
            · simp only [retryLoop, hb, hle, h5, if_false, ite_false, if_true,
                ite_true] at hx
              exact ((mem_srem_iff _ _ _).mp (ih cnt _ x hx)).1
            · simp only [retryLoop, hb, hle, h5, if_false, ite_false] at hx
              exact ((mem_srem_iff _ _ _).mp (ih (cnt + 1) _ x hx)).1

theorem retryLoop_failed_stable (limit now : Nat) (snap : List String) :
    ∀ (cnt : Nat) (st : MsgState) (x : String),
      x ∈ st.failed → x ∉ snap →
      x ∈ (retryLoop limit now snap cnt st).2.failed := by
  induction snap with
  | nil => intro cnt st x hx _; exact hx
  | cons id rest ih =>
      intro cnt st x hx hns
      have hne : x ≠ id := fun h => hns (h ▸ List.mem_cons_self id rest)
      have hnr : x ∉ rest := fun h => hns (List.mem_cons_of_mem id h)
      by_cases hle : limit ≤ cnt
      · simp only [retryLoop, if_pos hle]; exact hx
      · cases hb : blobGet id st.blobs with
        | none =>
            simp only [retryLoop, hb, hle, if_false, ite_false]
            exact ih cnt st x hx hnr
        | some m =>
            by_cases h5 : 5 < m.retryCount + 1
            · simp only [retryLoop, hb, hle, h5, if_false, ite_false, if_true,
                ite_true]
              exact ih cnt _ x ((mem_srem_iff _ _ _).mpr ⟨hx, hne⟩) hnr
            · simp only [retryLoop, hb, hle, h5, if_false, ite_false]
              exact ih (cnt + 1) _ x ((mem_srem_iff _ _ _).mpr ⟨hx, hne⟩) hnr

theorem retryLoop_blob_sub (limit now : Nat) (snap : List String) :
    ∀ (cnt : Nat) (st : MsgState) (x : String) (m : Msg),
      blobGet x (retryLoop limit now snap cnt st).2.blobs = some m →
      blobGet x st.blobs = some m := by
  induction snap with
  | nil => intro cnt st x m hx; exact hx
  | cons id rest ih =>
      intro cnt st x m hx
      by_cases hle : limit ≤ cnt
      · simp only [retryLoop, if_pos hle] at hx; exact hx
      · cases hb : blobGet id st.blobs with
        | none =>
            simp only [retryLoop, hb, hle, if_false, ite_false] at hx
            exact ih cnt st x m hx
        | some mh =>
            by_cases h5 : 5 < mh.retryCount + 1
            · simp only [retryLoop, hb, hle, h5, if_false, ite_false, if_true,
                ite_true] at hx
              exact blobGet_blobDel_some x id m st.blobs (ih cnt _ x m hx)
            · simp only [retryLoop, hb, hle, h5, if_false, ite_false] at hx
              exact blobGet_blobDel_some x id m st.blobs (ih (cnt + 1) _ x m hx)

theorem retryLoop_pending_src (limit now : Nat) (snap : List String) :
    ∀ (cnt : Nat) (st : MsgState) (x : String),
      x ∈ pendingIds (retryLoop limit now snap cnt st).2 →
      x ∈ pendingIds st ∨
        ∃ k m, blobGet k st.blobs = some m ∧ m.retryCount + 1 ≤ 5 ∧
          x = m.messageId := by
  induction snap with
  | nil => intro cnt st x hx; exact Or.inl hx
  | cons id rest ih =>
      intro cnt st x hx
      by_cases hle : limit ≤ cnt
      · simp only [retryLoop, if_pos hle] at hx; exact Or.inl hx
      · cases hb : blobGet id st.blobs with
        | none =>
            simp only [retryLoop, hb, hle, if_false, ite_false] at hx
            exact ih cnt st x hx
        | some m =>
            by_cases h5 : 5 < m.retryCount + 1
            · simp only [retryLoop, hb, hle, h5, if_false, ite_false, if_true,
                ite_true] at hx
              rcases ih cnt _ x hx with h1 | ⟨k, m', hk, hm', hx'⟩
              · exact Or.inl h1
              · exact Or.inr ⟨k, m', blobGet_blobDel_some k id m' st.blobs hk,
                  hm', hx'⟩
            · simp only [retryLoop, hb, hle, h5, if_false, ite_false] at hx
              rcases ih (cnt + 1) _ x hx with h1 | ⟨k, m', hk, hm', hx'⟩
              · rw [pendingIds_append] at h1
                rcases List.mem_append.mp h1 with h2 | h2
                · exact Or.inl h2
                · simp [requeueMsg_messageId] at h2
                  exact Or.inr ⟨id, m, hb, by omega, h2⟩
              · exact Or.inr ⟨k, m', blobGet_blobDel_some k id m' st.blobs hk,
                  hm', hx'⟩

theorem retryLoop_count (limit now : Nat) (snap : List String) :
    ∀ (cnt : Nat) (st : MsgState),
      (retryLoop limit now snap cnt st).1 + st.pending.length
        = cnt + (retryLoop limit now snap cnt st).2.pending.length := by
  induction snap with
  | nil => intro cnt st; rfl
  | cons id rest ih =>
      intro cnt st
      by_cases hle : limit ≤ cnt
      · simp only [retryLoop, if_pos hle]
      · cases hb : blobGet id st.blobs with
        | none =>
            simp only [retryLoop, hb, hle, if_false, ite_false]
            exact ih cnt st
        | some m =>
            by_cases h5 : 5 < m.retryCount + 1
            · simp only [retryLoop, hb, hle, h5, if_false, ite_false, if_true,
                ite_true]
              exact ih cnt _
            · simp only [retryLoop, hb, hle, h5, if_false, ite_false]
              have h2 := ih (cnt + 1)
                { st with
                    pending := st.pending ++ [requeueMsg m (m.retryCount + 1) now],
                    failed := srem id st.failed,
                    blobs := blobDel id st.blobs }
              simp only [List.length_append, List.length_cons,
                List.length_nil] at h2
              omega

theorem retryLoop_no_loss (limit now : Nat) (snap : List String) :
    ∀ (cnt : Nat) (st : MsgState) (x : String),
      snap.Nodup → (∀ p ∈ st.blobs, p.2.messageId = p.1) →
      x ∈ snap → x ∈ st.failed →
      (∀ m, blobGet x st.blobs = some m → m.retryCount + 1 ≤ 5) →
      x ∈ pendingIds (retryLoop limit now snap cnt st).2 ∨
        x ∈ (retryLoop limit now snap cnt st).2.failed := by
  induction snap with
  | nil => intro cnt st x _ _ hx; exact absurd hx (List.not_mem_nil x)
  | cons id rest ih =>
      intro cnt st x hnd hwf hxs hxf hsmall
      by_cases hle : limit ≤ cnt
      · simp only [retryLoop, if_pos hle]
        exact Or.inr hxf
      · cases hb : blobGet id st.blobs with
        | none =>
            simp only [retryLoop, hb, hle, if_false, ite_false]
            rcases List.mem_cons.mp hxs with h1 | h1
            · subst h1
              exact Or.inr (retryLoop_failed_stable limit now rest cnt st x hxf
                (List.nodup_cons.mp hnd).1)
            · exact ih cnt st x (List.nodup_cons.mp hnd).2 hwf h1 hxf hsmall
        | some m =>
            rcases List.mem_cons.mp hxs with h1 | h1
            · subst h1
              have h5 : ¬ 5 < m.retryCount + 1 := by
                have := hsmall m hb
                omega
              simp only [retryLoop, hb, hle, h5, if_false, ite_false]
              left
              apply retryLoop_pending_mono
              rw [pendingIds_append]
              apply List.mem_append_right
              rw [requeueMsg_messageId, blobGet_messageId x m st.blobs hwf hb]
              exact List.mem_singleton_self x
            · have hne : x ≠ id := by
                intro he
                subst he
                exact (List.nodup_cons.mp hnd).1 h1
              by_cases h5 : 5 < m.retryCount + 1
              · simp only [retryLoop, hb, hle, h5, if_false, ite_false,
                  if_true, ite_true]
                refine ih cnt _ x (List.nodup_cons.mp hnd).2
                  (blobDel_wf _ _ hwf) h1
                  ((mem_srem_iff _ _ _).mpr ⟨hxf, hne⟩) ?_
                intro m' hm'
                exact hsmall m' (blobGet_blobDel_some x id m' st.blobs hm')
              · simp only [retryLoop, hb, hle, h5, if_false, ite_false]
                refine ih (cnt + 1) _ x (List.nodup_cons.mp hnd).2
                  (blobDel_wf _ _ hwf) h1
                  ((mem_srem_iff _ _ _).mpr ⟨hxf, hne⟩) ?_
                intro m' hm'
                exact hsmall m' (blobGet_blobDel_some x id m' st.blobs hm')

theorem retryLoop_inv (limit now : Nat) (snap : List String) :
    ∀ (cnt : Nat) (st : MsgState),
      Inv st → snap.Nodup → (∀ id ∈ snap, id ∈ st.failed) →
      Inv (retryLoop limit now snap cnt st).2 := by
  induction snap with
  | nil => intro cnt st hInv _ _; exact hInv
  | cons id rest ih =>
      intro cnt st hInv hnd hsub
      by_cases hle : limit ≤ cnt
      · simp only [retryLoop, if_pos hle]; exact hInv
      · have hidf : id ∈ st.failed := hsub id (List.mem_cons_self id rest)
        have hrest : ∀ y ∈ rest, y ∈ st.failed := fun y hy =>
          hsub y (List.mem_cons_of_mem id hy)
        have hrestne : ∀ y ∈ rest, y ≠ id := by
          intro y hy he
          subst he
          exact (List.nodup_cons.mp hnd).1 hy
        cases hb : blobGet id st.blobs with
        | none =>
            simp only [retryLoop, hb, hle, if_false, ite_false]
            exact ih cnt st hInv (List.nodup_cons.mp hnd).2 hrest
        | some m =>
            by_cases h5 : 5 < m.retryCount + 1
            · simp only [retryLoop, hb, hle, h5, if_false, ite_false,
                if_true, ite_true]
              refine ih cnt _ (inv_dropState st id hInv)
                (List.nodup_cons.mp hnd).2 ?_
              intro y hy
              exact (mem_srem_iff id y st.failed).mpr
                ⟨hrest y hy, hrestne y hy⟩
            · simp only [retryLoop, hb, hle, h5, if_false, ite_false]
              refine ih (cnt + 1) _
                (inv_requeueState st id m (m.retryCount + 1) now hInv hidf hb)
                (List.nodup_cons.mp hnd).2 ?_
              intro y hy
              exact (mem_srem_iff id y st.failed).mpr
                ⟨hrest y hy, hrestne y hy⟩

theorem retryLoop_drop (limit now : Nat) (snap : List String) :
    ∀ (cnt : Nat) (st : MsgState) (x : String) (m : Msg),
      snap.Nodup → (∀ p ∈ st.blobs, p.2.messageId = p.1) →
      cnt + snap.length ≤ limit →
      x ∈ snap → blobGet x st.blobs = some m → 5 < m.retryCount + 1 →
      x ∉ pendingIds st →
      x ∉ (retryLoop limit now snap cnt st).2.failed ∧
      blobGet x (retryLoop limit now snap cnt st).2.blobs = none ∧
      x ∉ pendingIds (retryLoop limit now snap cnt st).2 := by
  induction snap with
  | nil => intro cnt st x m _ _ _ hx; exact absurd hx (List.not_mem_nil x)
  | cons id rest ih =>
      intro cnt st x m hnd hwf hlim hxs hbx h5x hnp
      simp only [List.length_cons] at hlim
      have hle : ¬ limit ≤ cnt := by omega
      rcases List.mem_cons.mp hxs with h1 | h1
      · subst h1
        simp only [retryLoop, hbx, hle, h5x, if_false, ite_false,
          if_true, ite_true]
        set st2 : MsgState :=
          { st with failed := srem x st.failed, blobs := blobDel x st.blobs }
          with hst2
        have hb2 : blobGet x st2.blobs = none := by
          rw [hst2]
          exact blobGet_blobDel_self x st.blobs
        refine ⟨?_, ?_, ?_⟩
        · intro hc
          exact not_mem_srem_self x st.failed
            (retryLoop_failed_sub limit now rest cnt st2 x hc)
        · cases hg : blobGet x (retryLoop limit now rest cnt st2).2.blobs with
          | none => rfl
          | some m' =>
              exfalso
              have h3 := retryLoop_blob_sub limit now rest cnt st2 x m' hg
              rw [hb2] at h3
              exact Option.noConfusion h3
        · intro hc
          rcases retryLoop_pending_src limit now rest cnt st2 x hc with
            h2 | ⟨k, m', hk, _, hx'⟩
          · exact hnp h2
          · have hwf2 : ∀ p ∈ st2.blobs, p.2.messageId = p.1 := by
              rw [hst2]
              exact blobDel_wf x st.blobs hwf
            have hkx : k = x := by
              have := blobGet_messageId k m' st2.blobs hwf2 hk
              rw [← this, ← hx']
            rw [hkx, hb2] at hk
            exact Option.noConfusion hk
      · have hne : x ≠ id := fun he =>
          (List.nodup_cons.mp hnd).1 (he ▸ h1)
        cases hb : blobGet id st.blobs with
        | none =>
            simp only [retryLoop, hb, hle, if_false, ite_false]
            exact ih cnt st x m (List.nodup_cons.mp hnd).2 hwf (by omega)
              h1 hbx h5x hnp
        | some mh =>
            by_cases h5 : 5 < mh.retryCount + 1
            · simp only [retryLoop, hb, hle, h5, if_false, ite_false,
                if_true, ite_true]
              refine ih cnt _ x m (List.nodup_cons.mp hnd).2
                (blobDel_wf _ _ hwf) (by omega) h1 ?_ h5x hnp
              show blobGet x (blobDel id st.blobs) = some m
              rw [blobGet_blobDel_other x id st.blobs hne]
              exact hbx
            · simp only [retryLoop, hb, hle, h5, if_false, ite_false]
              refine ih (cnt + 1) _ x m (List.nodup_cons.mp hnd).2
                (blobDel_wf _ _ hwf) (by omega) h1 ?_ h5x ?_
              · show blobGet x (blobDel id st.blobs) = some m
                rw [blobGet_blobDel_other x id st.blobs hne]
                exact hbx
              · intro hc
                rw [pendingIds_append] at hc
                rcases List.mem_append.mp hc with h2 | h2
                · exact hnp h2
                · rw [requeueMsg_messageId] at h2
                  simp only [List.mem_singleton] at h2
                  have := blobGet_messageId id mh st.blobs hwf hb
                  exact hne (h2.trans this)

/-! ## The delivery-worker step preserves the invariant -/

theorem processBody_inv (m : Msg) (oc : SendOutcome) (s : MsgState)
    (hpnd : (pendingIds s).Nodup) (hpr : s.processing.Nodup)
    (hfl : s.failed.Nodup) (hbk : (s.blobs.map Prod.fst).Nodup)
    (hwf : ∀ p ∈ s.blobs, p.2.messageId = p.1) (hex : exclusive s)
    (hnp : m.messageId ∉ pendingIds s)
    (hnr : m.messageId ∉ s.processing) :
    Inv (processBody m oc s) := by
  have hps : srem m.messageId (sadd m.messageId s.processing) = s.processing :=
    srem_sadd _ _ hnr
  cases oc with
  | ok =>
      have hxe : processBody m .ok s = s := by
        show ({ s with
            processing := srem m.messageId (sadd m.messageId s.processing) }
            : MsgState) = s
        rw [hps]
      rw [hxe]
      exact ⟨hpnd, hpr, hfl, hbk, hwf, hex⟩
  | failed =>
      have hxe : processBody m .failed s
          = { s with failed := sadd m.messageId s.failed,
                     blobs := blobSet m.messageId m s.blobs } := by
        show ({ s with
            processing := srem m.messageId (sadd m.messageId s.processing),
            failed := sadd m.messageId s.failed,
            blobs := blobSet m.messageId m s.blobs } : MsgState) = _
        rw [hps]
      rw [hxe]
      refine ⟨hpnd, hpr, sadd_nodup _ _ hfl, blobSet_keys_nodup _ _ _ hbk,
        blobSet_wf _ _ _ rfl hwf, ?_⟩
      intro y
      by_cases hy : y = m.messageId
      · subst hy
        unfold locCount
        show ((if m.messageId ∈ pendingIds s then (1 : Nat) else 0) +
            (if m.messageId ∈ s.processing then 1 else 0) +
            (if m.messageId ∈ sadd m.messageId s.failed then 1 else 0)) ≤ 1
        rw [if_neg hnp, if_neg hnr, if_pos (mem_sadd_self _ _)]
      · refine le_trans
          (locCount_mono s _ y (fun h => h) (fun h => h) ?_) (hex y)
        intro h
        rcases (mem_sadd_iff _ _ _).mp h with h1 | h1
        · exact absurd h1 hy
        · exact h1
  | raised =>
      have hxe : processBody m .raised s
          = { s with failed := sadd m.messageId s.failed,
                     blobs := blobSet m.messageId m s.blobs } := by
        show ({ s with
            processing := srem m.messageId (sadd m.messageId s.processing),
            failed := sadd m.messageId s.failed,
            blobs := blobSet m.messageId m s.blobs } : MsgState) = _
        rw [hps]
      rw [hxe]
      refine ⟨hpnd, hpr, sadd_nodup _ _ hfl, blobSet_keys_nodup _ _ _ hbk,
        blobSet_wf _ _ _ rfl hwf, ?_⟩
      intro y
      by_cases hy : y = m.messageId
      · subst hy
        unfold locCount
        show ((if m.messageId ∈ pendingIds s then (1 : Nat) else 0) +
            (if m.messageId ∈ s.processing then 1 else 0) +
            (if m.messageId ∈ sadd m.messageId s.failed then 1 else 0)) ≤ 1
        rw [if_neg hnp, if_neg hnr, if_pos (mem_sadd_self _ _)]
      · refine le_trans
          (locCount_mono s _ y (fun h => h) (fun h => h) ?_) (hex y)
        intro h
        rcases (mem_sadd_iff _ _ _).mp h with h1 | h1
        · exact absurd h1 hy
        · exact h1

theorem consumeStep_inv (now : Nat) (oc : SendOutcome) (st : MsgState)
    (hInv : Inv st) : Inv (consumeStep now oc st) := by
  obtain ⟨hpnd, hpr, hfl, hbk, hwf, hex⟩ := hInv
  cases hp : st.pending with
  | nil =>
      simp only [consumeStep, hp]
      exact ⟨hpnd, hpr, hfl, hbk, hwf, hex⟩
  | cons m rest =>
      have hpe : pendingIds st = m.messageId :: rest.map Msg.messageId := by
        simp [pendingIds, hp]
      have hnm : m.messageId ∉ rest.map Msg.messageId := by
        rw [hpe] at hpnd
        exact (List.nodup_cons.mp hpnd).1
      have hrnd : (rest.map Msg.messageId).Nodup := by
        rw [hpe] at hpnd
        exact (List.nodup_cons.mp hpnd).2
      have hmp : m.messageId ∈ pendingIds st := by
        rw [hpe]
        exact List.mem_cons_self _ _
      have hnpr : m.messageId ∉ st.processing :=
        (exclusive_pending_only st hex _ hmp).1
      have hsub : ∀ y, y ∈ rest.map Msg.messageId → y ∈ pendingIds st := by
        intro y hy
        rw [hpe]
        exact List.mem_cons_of_mem _ hy
      have hexr : exclusive { st with pending := rest } := by
        intro y
        exact le_trans
          (locCount_mono st _ y (hsub y) (fun h => h) (fun h => h)) (hex y)
      simp only [consumeStep, hp]
      show Inv (processMessage m now oc { st with pending := rest })
      cases hn : m.nextRetryAt with
      | some t =>
          by_cases hlt : now < t
          · simp only [processMessage, hn, hlt, if_true, ite_true]
            have hpe2 : pendingIds { st with pending := rest ++ [m] }
                = rest.map Msg.messageId ++ [m.messageId] := by
              simp [pendingIds]
            refine ⟨?_, hpr, hfl, hbk, hwf, ?_⟩
            · rw [hpe2]
              refine List.Nodup.append hrnd (List.nodup_singleton _) ?_
              intro a ha hb2
              simp at hb2
              rw [hb2] at ha
              exact hnm ha
            · intro y
              refine le_trans
                (locCount_mono st _ y ?_ (fun h => h) (fun h => h)) (hex y)
              rw [hpe2, hpe]
              intro h
              rcases List.mem_append.mp h with h1 | h1
              · exact List.mem_cons_of_mem _ h1
              · simp at h1
                rw [h1]
                exact List.mem_cons_self _ _
          · simp only [processMessage, hn, hlt, if_false, ite_false]
            exact processBody_inv m oc _ hrnd hpr hfl hbk hwf hexr hnm hnpr
      | none =>
          simp only [processMessage, hn]
          exact processBody_inv m oc _ hrnd hpr hfl hbk hwf hexr hnm hnpr

theorem processBody_eq_ok (m : Msg) (s : MsgState)
    (hnr : m.messageId ∉ s.processing) : processBody m .ok s = s := by
  show ({ s with
      processing := srem m.messageId (sadd m.messageId s.processing) }
      : MsgState) = s
  rw [srem_sadd _ _ hnr]

theorem processBody_eq_fail (m : Msg) (oc : SendOutcome) (s : MsgState)
    (hnr : m.messageId ∉ s.processing) (hoc : oc ≠ .ok) :
    processBody m oc s
      = { s with failed := sadd m.messageId s.failed,
                 blobs := blobSet m.messageId m s.blobs } := by
  cases oc with
  | ok => exact absurd rfl hoc
  | failed =>
      show ({ s with
          processing := srem m.messageId (sadd m.messageId s.processing),
          failed := sadd m.messageId s.failed,
          blobs := blobSet m.messageId m s.blobs } : MsgState) = _
      rw [srem_sadd _ _ hnr]
  | raised =>
      show ({ s with
          processing := srem m.messageId (sadd m.messageId s.processing),
          failed := sadd m.messageId s.failed,
          blobs := blobSet m.messageId m s.blobs } : MsgState) = _
      rw [srem_sadd _ _ hnr]

theorem consumeStep_no_loss (now : Nat) (oc : SendOutcome) (st : MsgState)
    (hInv : Inv st) (id : String) (hpos : 1 ≤ locCount st id) :
    1 ≤ locCount (consumeStep now oc st) id ∨
      (oc = SendOutcome.ok ∧ st.pending.head?.map Msg.messageId = some id) := by
  obtain ⟨hpnd, hpr, hfl, hbk, hwf, hex⟩ := hInv
  cases hp : st.pending with
  | nil =>
      left
      simp only [consumeStep, hp]
      exact hpos
  | cons m rest =>
      have hpe : pendingIds st = m.messageId :: rest.map Msg.messageId := by
        simp [pendingIds, hp]
      have hmp : m.messageId ∈ pendingIds st := by
        rw [hpe]
        exact List.mem_cons_self _ _
      have hnpr : m.messageId ∉ st.processing :=
        (exclusive_pending_only st hex _ hmp).1
      have hbody :
          1 ≤ locCount (processBody m oc { st with pending := rest }) id ∨
            (oc = SendOutcome.ok ∧
              (m :: rest).head?.map Msg.messageId = some id) := by
        cases oc with
        | ok =>
            rw [processBody_eq_ok m { st with pending := rest } hnpr]
            rcases locCount_pos_elim st id hpos with h1 | h1 | h1
            · rw [hpe] at h1
              rcases List.mem_cons.mp h1 with h2 | h2
              · right
                refine ⟨rfl, ?_⟩
                simp [h2]
              · left
                exact locCount_pos_of_pending _ _ h2
            · left
              exact locCount_pos_of_processing _ _ h1
            · left
              exact locCount_pos_of_failed _ _ h1
        | failed =>
            left
            rw [processBody_eq_fail m .failed { st with pending := rest } hnpr (by simp)]
            rcases locCount_pos_elim st id hpos with h1 | h1 | h1
            · rw [hpe] at h1
              rcases List.mem_cons.mp h1 with h2 | h2
              · apply locCount_pos_of_failed
                show id ∈ sadd m.messageId st.failed
                rw [h2]
                exact mem_sadd_self _ _
              · exact locCount_pos_of_pending _ _ h2
            · exact locCount_pos_of_processing _ _ h1
            · apply locCount_pos_of_failed
              show id ∈ sadd m.messageId st.failed
              exact (mem_sadd_iff _ _ _).mpr (Or.inr h1)
        | raised =>
            left
            rw [processBody_eq_fail m .raised { st with pending := rest } hnpr (by simp)]
            rcases locCount_pos_elim st id hpos with h1 | h1 | h1
            · rw [hpe] at h1
              rcases List.mem_cons.mp h1 with h2 | h2
              · apply locCount_pos_of_failed
                show id ∈ sadd m.messageId st.failed
                rw [h2]
                exact mem_sadd_self _ _
              · exact locCount_pos_of_pending _ _ h2
            · exact locCount_pos_of_processing _ _ h1
            · apply locCount_pos_of_failed
              show id ∈ sadd m.messageId st.failed
              exact (mem_sadd_iff _ _ _).mpr (Or.inr h1)
      simp only [consumeStep, hp]
      cases hn : m.nextRetryAt with
      | some t =>
          by_cases hlt : now < t
          · left
            simp only [processMessage, hn, hlt, if_true, ite_true]
            rcases locCount_pos_elim st id hpos with h1 | h1 | h1
            · apply locCount_pos_of_pending
              show id ∈ (rest ++ [m]).map Msg.messageId
              rw [List.map_append]
              rw [hpe] at h1
              rcases List.mem_cons.mp h1 with h2 | h2
              · apply List.mem_append_right
                simp [h2]
              · exact List.mem_append_left _ h2
            · exact locCount_pos_of_processing _ _ h1
            · exact locCount_pos_of_failed _ _ h1
          · simp only [processMessage, hn, hlt, if_false, ite_false]
            exact hbody
      | none =>
          simp only [processMessage, hn]
          exact hbody

/-- C1: queue-state mutual exclusion. Starting from an invariant-satisfying
queue state, both a delivery-worker step (`_process_message` on a popped
message) and a retry-scheduler run (`retry_failed_messages`) preserve the
invariant that every message id appears in at most one of {pending,
in-flight, failed}; no id is lost by a worker step except the delivered
head, and no failed message whose incremented retry count is at most the
maximum (5) is lost by a retry run. -/
theorem c1_queue_state_exclusion (st : MsgState) (now : Nat)
    (oc : SendOutcome) (limit : Nat) (hInv : Inv st) :
    Inv (consumeStep now oc st) ∧
    Inv (retryFailedMessages limit now st).2 ∧
    (∀ id, 1 ≤ locCount st id →
      1 ≤ locCount (consumeStep now oc st) id ∨
        (oc = SendOutcome.ok ∧ st.pending.head?.map Msg.messageId = some id)) ∧
    (∀ id, id ∈ st.failed →
      (∀ m, blobGet id st.blobs = some m → m.retryCount + 1 ≤ 5) →
      1 ≤ locCount (retryFailedMessages limit now st).2 id) := by
  refine ⟨consumeStep_inv now oc st hInv,
    retryLoop_inv limit now st.failed 0 st hInv hInv.2.2.1 (fun id h => h),
    consumeStep_no_loss now oc st hInv, ?_⟩
  intro id hid hsmall
  rcases retryLoop_no_loss limit now st.failed 0 st id hInv.2.2.1
    hInv.2.2.2.2.1 hid hid hsmall with h | h
  · exact locCount_pos_of_pending _ _ h
  · exact locCount_pos_of_failed _ _ h

/-- The failed message (one prior attempt) of the C1 witness state. -/
def c1Msg : Msg := ⟨"c", "u", "y", 0, 1, none, none⟩

/-- A queue state holding exactly `c1Msg` quarantined in the failed set. -/
def c1St : MsgState := ⟨[], [], ["c"], [("c", c1Msg)]⟩

theorem c1_queue_state_exclusion_witness :
    Inv c1St ∧
    Inv (consumeStep 0 .failed c1St) ∧
    Inv (retryFailedMessages 10 0 c1St).2 ∧
    1 ≤ locCount (retryFailedMessages 10 0 c1St).2 "c" := by
  have hInv : Inv c1St := by
    refine ⟨by decide, by decide, by decide, by decide, by decide, ?_⟩
    intro id
    simp only [locCount, pendingIds]
    show ((if id ∈ ([] : List Msg).map Msg.messageId then (1 : Nat) else 0) +
      (if id ∈ ([] : List String) then 1 else 0) +
      (if id ∈ ["c"] then 1 else 0)) ≤ 1
    simp only [List.map_nil, List.not_mem_nil, if_false, ite_false]
    split <;> omega
  have h := c1_queue_state_exclusion c1St 0 .failed 10 hInv
  refine ⟨hInv, h.1, h.2.1, ?_⟩
  refine h.2.2.2 "c" (by decide) ?_
  intro m hm
  have he : blobGet "c" c1St.blobs = some c1Msg := rfl
  rw [he] at hm
  injection hm with h2
  rw [← h2]
  decide

/-- C4: retry cap. A message in the failed set whose incremented retry
count exceeds 5 is permanently dropped by a `retry_failed_messages` call
that visits every member (limit at least the failed-set size): it is
removed from the failed set, its blob is deleted, it is not re-appended to
the pending queue, and the returned total counts exactly the re-queued
messages (the growth of the pending queue), so the drop contributes
nothing. -/
theorem c4_retry_cap (limit now : Nat) (st : MsgState) (id : String)
    (m : Msg) (hInv : Inv st) (hid : id ∈ st.failed)
    (hb : blobGet id st.blobs = some m) (hmax : 5 < m.retryCount + 1)
    (hlim : st.failed.length ≤ limit) :
    id ∉ (retryFailedMessages limit now st).2.failed ∧
    blobGet id (retryFailedMessages limit now st).2.blobs = none ∧
    id ∉ pendingIds (retryFailedMessages limit now st).2 ∧
    (retryFailedMessages limit now st).1 + st.pending.length
      = (retryFailedMessages limit now st).2.pending.length := by
  obtain ⟨hpnd, hpr, hfl, hbk, hwf, hex⟩ := hInv
  have hnp : id ∉ pendingIds st := (exclusive_failed_only st hex id hid).1
  have hdrop := retryLoop_drop limit now st.failed 0 st id m hfl hwf
    (by omega) hid hb hmax hnp
  have hcount := retryLoop_count limit now st.failed 0 st
  simp only [retryFailedMessages]
  exact ⟨hdrop.1, hdrop.2.1, hdrop.2.2, by omega⟩

/-- The exhausted message (five prior attempts) of the C4 witness state. -/
def c4Msg : Msg := ⟨"d", "u", "z", 0, 5, some 16, some 90⟩

/-- A queue state holding exactly `c4Msg` quarantined in the failed set. -/
def c4St : MsgState := ⟨[], [], ["d"], [("d", c4Msg)]⟩

theorem c4_retry_cap_witness :
    Inv c4St ∧ "d" ∈ c4St.failed ∧
    blobGet "d" c4St.blobs = some c4Msg ∧ 5 < c4Msg.retryCount + 1 ∧
    "d" ∉ (retryFailedMessages 10 0 c4St).2.failed ∧
    blobGet "d" (retryFailedMessages 10 0 c4St).2.blobs = none ∧
    "d" ∉ pendingIds (retryFailedMessages 10 0 c4St).2 ∧
    (retryFailedMessages 10 0 c4St).1 + c4St.pending.length
      = (retryFailedMessages 10 0 c4St).2.pending.length := by
  have hInv : Inv c4St := by
    refine ⟨by decide, by decide, by decide, by decide, by decide, ?_⟩
    intro id
    simp only [locCount, pendingIds]
    show ((if id ∈ ([] : List Msg).map Msg.messageId then (1 : Nat) else 0) +
      (if id ∈ ([] : List String) then 1 else 0) +
      (if id ∈ ["d"] then 1 else 0)) ≤ 1
    simp only [List.map_nil, List.not_mem_nil, if_false, ite_false]
    split <;> omega
  have h := c4_retry_cap 10 0 c4St "d" c4Msg hInv (by decide) rfl
    (by decide) (by decide)
  exact ⟨hInv, by decide, rfl, by decide, h.1, h.2.1, h.2.2.1, h.2.2.2⟩

end LegalCS
